import Mathlib

/-!
Shallow embedding of the conflux multi-stream message synchronizer
(`conflux_py/_core.py`, pure-Python fallback path, which is the engine
actually present in the sources), together with spec-level models of the
parts that live only in the missing native library (the DROP_OLDEST push)
and of the head-set window test used for refinement comparison.
-/

namespace Conflux

/-- A buffered message: a timestamp in nanoseconds and an opaque payload
handle.  `_core.py` stores arbitrary Python objects as payloads; the core
never inspects them, so payloads are modelled as `Nat` handles. -/
structure Msg where
  ts : Int
  payload : Nat
deriving DecidableEq, Repr

abbrev Buffer := List Msg

/-- Timestamp order on messages, the sort key of
`buffer.sort(key=lambda x: x[0])`. -/
def msgLE (a b : Msg) : Prop := a.ts ≤ b.ts

instance : DecidableRel msgLE := fun a b => inferInstanceAs (Decidable (a.ts ≤ b.ts))

instance : IsTotal Msg msgLE := ⟨fun a b => Int.le_total a.ts b.ts⟩

instance : IsTrans Msg msgLE := ⟨fun _ _ _ h1 h2 => le_trans h1 h2⟩

/-- Synchronizer state: the registered topics (`self._topics`), the two
`SyncConfig` fields (window in milliseconds, per-stream capacity), and the
per-topic buffers (`self._buffers`, an insertion-ordered Python dict,
modelled as an association list whose keys appear in first-occurrence
order). -/
structure Sync where
  topics : List String
  windowSizeMs : Int
  bufferSize : Nat
  buffers : List (String × Buffer)
deriving DecidableEq, Repr

/-- `SyncGroup` of `_core.py`: the payloads keyed by topic plus the
representative timestamp `timestamp_ns`. -/
structure SyncGroup where
  messages : List (String × Nat)
  timestampNs : Int
deriving DecidableEq, Repr

/-- Error kinds raised by `push` (`KeyError` for unknown topics,
`ValueError` for negative timestamps). -/
inductive PushError where
  | unknownTopic
  | invalidArgument
deriving DecidableEq, Repr

/-- Error kind raised by the constructor (`ValueError`). -/
inductive SyncError where
  | invalidArgument
deriving DecidableEq, Repr

/-- Key set of the Python dict comprehension
`{topic: [] for topic in topics}`: first occurrence of each name, in
order. -/
def dedupFirst (l : List String) : List String :=
  l.foldl (fun acc t => if t ∈ acc then acc else acc ++ [t]) []

/-- `Synchronizer.__init__` plus `_pure_python_init` (the fallback path):
only the empty topic list is rejected; every buffer starts empty. -/
def mkSynchronizer (topics : List String) (windowSizeMs : Int) (bufferSize : Nat) :
    Except SyncError Sync :=
  if topics.isEmpty then .error .invalidArgument
  else .ok ⟨topics, windowSizeMs, bufferSize, (dedupFirst topics).map (fun t => (t, []))⟩

/-- Python dict lookup `self._buffers[topic]` / `.get(topic)`. -/
def lookupKey : List (String × Buffer) → String → Option Buffer
  | [], _ => none
  | p :: rest, t => if p.1 = t then some p.2 else lookupKey rest t

/-- Python dict entry update `self._buffers[topic] = b` (keys are unique,
so mapping over all entries updates exactly the one entry). -/
def setKey (l : List (String × Buffer)) (t : String) (b : Buffer) : List (String × Buffer) :=
  l.map (fun p => if p.1 = t then (p.1, b) else p)

/-- `Synchronizer.push` (fallback): `KeyError` on an unregistered topic,
`ValueError` on a negative timestamp, rejection when the buffer is full,
otherwise append the new message and re-sort by timestamp.  Python
`list.sort` is stable, so on a buffer the embedding is the stable
`insertionSort` of the buffer with the new message appended. -/
def Sync.push (s : Sync) (topic : String) (ts : Int) (payload : Nat) :
    Except PushError (Bool × Sync) :=
  if topic ∈ s.topics then
    if ts < 0 then .error .invalidArgument
    else
      match lookupKey s.buffers topic with
      | none => .error .unknownTopic
      | some buf =>
        if s.bufferSize ≤ buf.length then .ok (false, s)
        else
          .ok (true, { s with
            buffers := setKey s.buffers topic
              (List.insertionSort msgLE (buf ++ [⟨ts, payload⟩])) })
  else .error .unknownTopic

/-- `any(len(buf) == 0 for buf in self._buffers.values())`. -/
def anyEmpty (s : Sync) : Bool := s.buffers.any (fun p => p.2.isEmpty)

/-- Default used by `headD`; only read on paths that the emptiness check has
already excluded. -/
def d0 : Msg := ⟨0, 0⟩

/-- `oldest = {topic: buf[0] for topic, buf in self._buffers.items()}`. -/
def oldest (s : Sync) : List (String × Msg) :=
  s.buffers.map (fun p => (p.1, p.2.headD d0))

/-- `timestamps = [ts for ts, msg in oldest.values()]`. -/
def timestamps (s : Sync) : List Int := (oldest s).map (fun p => p.2.ts)

/-- `window_ns = self._config.window_size_ms * 1_000_000`. -/
def windowNs (s : Sync) : Int := s.windowSizeMs * 1000000

/-- `ref_ts = sorted(timestamps)[len(timestamps) // 2]`; `none` only when
the topic list is empty, where Python would raise IndexError (unreachable
after construction). -/
def refTs? (s : Sync) : Option Int :=
  let st := List.insertionSort (· ≤ ·) (timestamps s)
  st.get? (st.length / 2)

/-- `all(abs(ts - ref_ts) <= window_ns for ts, msg in oldest.values())`. -/
def allWithinWindow (s : Sync) (ref : Int) : Bool :=
  (oldest s).all (fun p => decide (|p.2.ts - ref| ≤ windowNs s))

/-- The running minimum `min_ts` accumulated while popping; on the heads it
is the minimum of the head timestamps. -/
def minTs : List Int → Int
  | [] => 0
  | t :: r => r.foldl min t

/-- The `SyncGroup` built in the emission branch: for each topic the payload
of that buffer's front element, with `timestamp_ns` the minimum front
timestamp. -/
def emitGroup (s : Sync) : SyncGroup :=
  ⟨s.buffers.map (fun p => (p.1, (p.2.headD d0).payload)), minTs (timestamps s)⟩

/-- `buf.pop(0)` performed on every buffer in the emission branch. -/
def popAll (s : Sync) : Sync :=
  { s with buffers := s.buffers.map (fun p => (p.1, p.2.tail)) }

/-- Python `min(oldest.keys(), key=lambda t: oldest[t][0])`: scan left to
right keeping the current best, replacing it only on a strictly smaller
head timestamp, so the leftmost minimum wins. -/
def selMin : (String × Msg) → List (String × Msg) → String × Msg
  | best, [] => best
  | best, p :: rest => selMin (if p.2.ts < best.2.ts then p else best) rest

/-- `oldest_topic`: the topic whose head timestamp is minimal (leftmost on
ties). -/
def oldestTopic (s : Sync) : String :=
  match oldest s with
  | [] => ""
  | h :: r => (selMin h r).1

/-- `self._buffers[oldest_topic].pop(0)`: discard the front of the stream
with the minimal head timestamp. -/
def advance (s : Sync) : Sync :=
  { s with buffers :=
      s.buffers.map (fun p => if p.1 = oldestTopic s then (p.1, p.2.tail) else p) }

/-- `Synchronizer._pure_python_poll`: emptiness check, median reference
timestamp, window test against the median, then either emission (pop every
front) or advance (discard the oldest head). -/
def Sync.pollStep (s : Sync) : Option SyncGroup × Sync :=
  if anyEmpty s then (none, s)
  else
    match refTs? s with
    | none => (none, s)
    | some ref =>
      if allWithinWindow s ref then (some (emitGroup s), popAll s)
      else (none, advance s)

/-- Total number of buffered messages across all streams. -/
def totalCount (s : Sync) : Nat := (s.buffers.map (fun p => p.2.length)).sum

/-- `Synchronizer.buffer_len` (fallback):
`len(self._buffers.get(topic, []))` — total, returns 0 for unknown
topics. -/
def Sync.bufferLen (s : Sync) (topic : String) : Nat :=
  ((lookupKey s.buffers topic).getD []).length

/-- A buffer list in which every buffer is non-empty and which is itself
non-empty loses messages when every front is popped. -/
lemma sum_tail_lt {bs : List (String × Buffer)} (hne : bs ≠ [])
    (hall : ∀ p ∈ bs, p.2 ≠ []) :
    ((bs.map (fun p => (p.1, p.2.tail))).map (fun p => p.2.length)).sum <
      (bs.map (fun p => p.2.length)).sum := by
  induction bs with
  | nil => exact absurd rfl hne
  | cons q rest ih =>
    have hq : q.2 ≠ [] := hall q (List.mem_cons_self _ _)
    have hlen : q.2.tail.length + 1 = q.2.length := by
      cases h : q.2 with
      | nil => exact absurd h hq
      | cons a t => simp [h]
    cases rest with
    | nil => simp only [List.map_cons, List.map_nil, List.sum_cons, List.sum_nil]; omega
    | cons r rest' =>
      have hrest := ih (by simp) (fun p hp => hall p (List.mem_cons_of_mem _ hp))
      simp only [List.map_cons, List.sum_cons] at hrest ⊢
      omega

/-- Facts available once `pollStep` reaches the branch split: when the
emptiness check passed, every buffer is non-empty. -/
lemma anyEmpty_eq_false {s : Sync} (h : anyEmpty s = false) :
    ∀ p ∈ s.buffers, p.2 ≠ [] := by
  intro p hp
  have := List.any_eq_false.mp h p hp
  simpa [List.isEmpty_iff] using this

/-- When `refTs?` returns a value, the synchronizer has at least one
buffer. -/
lemma buffers_ne_nil_of_refTs {s : Sync} {ref : Int} (h : refTs? s = some ref) :
    s.buffers ≠ [] := by
  intro hb
  rw [refTs?] at h
  simp [timestamps, oldest, hb] at h

/-- An emitting `poll` strictly reduces the total buffered count. -/
lemma pollStep_emit_totalCount {s : Sync} {g : SyncGroup} {s' : Sync}
    (h : s.pollStep = (some g, s')) : totalCount s' < totalCount s := by
  rw [Sync.pollStep] at h
  split at h
  · exact absurd (congrArg Prod.fst h) (by simp)
  · rename_i hae
    split at h
    · exact absurd (congrArg Prod.fst h) (by simp)
    · rename_i ref href
      split at h
      · have hs' : s' = popAll s := (Prod.mk.injEq _ _ _ _ ▸ h).2.symm
        subst hs'
        have hall := anyEmpty_eq_false (by simpa using hae)
        have hne := buffers_ne_nil_of_refTs href
        simpa [totalCount, popAll] using sum_tail_lt hne hall
      · exact absurd (congrArg Prod.fst h) (by simp)

/-- `Synchronizer.drain`: poll repeatedly, collecting groups, until the
first poll that returns no group; return the groups and the final state. -/
def Sync.drain (s : Sync) : List SyncGroup × Sync :=
  match h : s.pollStep with
  | (none, s') => ([], s')
  | (some g, s') =>
    have : totalCount s' < totalCount s := pollStep_emit_totalCount h
    let r := s'.drain
    (g :: r.1, r.2)
termination_by totalCount s

/-- Unfolding equation of `drain` for a non-emitting first poll. -/
lemma drain_none {s s' : Sync} (h : s.pollStep = (none, s')) :
    s.drain = ([], s') := by
  rw [Sync.drain]
  split
  · rename_i h'
    rw [h] at h'
    exact (Prod.mk.injEq _ _ _ _ ▸ h').2 ▸ rfl
  · rename_i h'
    rw [h] at h'
    exact absurd (congrArg Prod.fst h') (by simp)

/-- Unfolding equation of `drain` for an emitting first poll. -/
lemma drain_some {s : Sync} {g : SyncGroup} {s' : Sync}
    (h : s.pollStep = (some g, s')) :
    s.drain = (g :: s'.drain.1, s'.drain.2) := by
  rw [Sync.drain]
  split
  · rename_i h'
    rw [h] at h'
    exact absurd (congrArg Prod.fst h') (by simp)
  · rename_i g' s'' h'
    rw [h] at h'
    have hg : g' = g := by
      have := congrArg Prod.fst h'
      simpa using this.symm
    have hs : s'' = s' := by
      have := congrArg Prod.snd h'
      simpa using this.symm
    subst hg; subst hs
    rfl

/-- Modelled from the spec: the native engine's `push` under `DROP_OLDEST`
(the conflux-ffi implementation is not under `src/`; only its declaration
in `_ffi.py` is).  Spec §4.2: unknown topic and negative timestamp fail;
when the buffer is full the front message is destroyed and the new message
is inserted at its stable timestamp position (ordering rule (a)); the push
is always accepted. -/
def specPushDropOldest (s : Sync) (topic : String) (ts : Int) (payload : Nat) :
    Except PushError (Bool × Sync) :=
  if topic ∈ s.topics then
    if ts < 0 then .error .invalidArgument
    else
      match lookupKey s.buffers topic with
      | none => .error .unknownTopic
      | some buf =>
        let buf1 := if s.bufferSize ≤ buf.length then buf.tail else buf
        .ok (true, { s with
          buffers := setKey s.buffers topic
            (List.insertionSort msgLE (buf1 ++ [⟨ts, payload⟩])) })
  else .error .unknownTopic

/-- Modelled from the spec: the head-set window test of §4.3 (steps 1–3),
the authoritative matcher: a group is emitted iff no buffer is empty and
`max(heads) - min(heads) ≤ window_ns`.  Used only to compare the fallback
matcher against the specified algorithm. -/
def headSetEmits (s : Sync) : Bool :=
  if anyEmpty s then false
  else
    match timestamps s with
    | [] => false
    | t :: r => decide (r.foldl max t - r.foldl min t ≤ windowNs s)

/-- The accepted/rejected flag of a push result (`false` on errors). -/
def acceptedOf (r : Except PushError (Bool × Sync)) : Bool :=
  match r with
  | .ok (b, _) => b
  | .error _ => false

/-- The state component of a push result (the unchanged input state on
errors). -/
def stateOf (r : Except PushError (Bool × Sync)) (s : Sync) : Sync :=
  match r with
  | .ok (_, s') => s'
  | .error _ => s

/-- The state after one `poll` call. -/
def stepSt (s : Sync) : Sync := s.pollStep.2

/-- The group (if any) returned by one `poll` call. -/
def stepGroup (s : Sync) : Option SyncGroup := s.pollStep.1

/-- Every buffer is ordered by timestamp (spec §3 `StreamBuffer`
invariant). -/
def sortedBuffers (s : Sync) : Prop := ∀ p ∈ s.buffers, List.Sorted msgLE p.2

instance (s : Sync) : Decidable (sortedBuffers s) :=
  inferInstanceAs (Decidable (∀ p ∈ s.buffers, List.Sorted msgLE p.2))

/-- Well-formedness of the buffer dictionary: its keys are exactly the
registered topics in first-occurrence order, as established by
`_pure_python_init` and preserved by every operation. -/
def WFKeys (s : Sync) : Prop := s.buffers.map Prod.fst = dedupFirst s.topics

instance (s : Sync) : Decidable (WFKeys s) :=
  inferInstanceAs (Decidable (s.buffers.map Prod.fst = dedupFirst s.topics))

/-- Membership in the first-occurrence key set agrees with membership in
the original list. -/
lemma mem_dedupFirst {t : String} {l : List String} : t ∈ dedupFirst l ↔ t ∈ l := by
  have key : ∀ (l acc : List String),
      (t ∈ l.foldl (fun acc u => if u ∈ acc then acc else acc ++ [u]) acc) ↔
        t ∈ acc ∨ t ∈ l := by
    intro l
    induction l with
    | nil => intro acc; simp
    | cons a l ih =>
      intro acc
      simp only [List.foldl_cons]
      rw [ih]
      by_cases ha : a ∈ acc
      · simp only [if_pos ha, List.mem_cons]
        constructor
        · rintro (h | h)
          · exact Or.inl h
          · exact Or.inr (Or.inr h)
        · rintro (h | h | h)
          · exact Or.inl h
          · exact Or.inl (h ▸ ha)
          · exact Or.inr h
      · simp only [if_neg ha, List.mem_append, List.mem_singleton, List.mem_cons]
        tauto
  simpa [dedupFirst] using (key l []).trans (by simp)

/-- Lookup misses exactly the keys that are absent. -/
lemma lookupKey_eq_none {l : List (String × Buffer)} {t : String}
    (h : t ∉ l.map Prod.fst) : lookupKey l t = none := by
  induction l with
  | nil => rfl
  | cons p rest ih =>
    simp only [List.map_cons, List.mem_cons] at h
    push_neg at h
    simp only [lookupKey, if_neg (Ne.symm h.1)]
    exact ih h.2

/-- Lookup hits every present key. -/
lemma lookupKey_isSome {l : List (String × Buffer)} {t : String}
    (h : t ∈ l.map Prod.fst) : (lookupKey l t).isSome := by
  induction l with
  | nil => simp at h
  | cons p rest ih =>
    simp only [List.map_cons, List.mem_cons] at h
    by_cases hp : p.1 = t
    · simp [lookupKey, hp]
    · simp only [lookupKey, if_neg hp]
      exact ih (h.resolve_left (fun he => hp he.symm))

/-- A successful lookup locates a genuine entry. -/
lemma lookupKey_mem {l : List (String × Buffer)} {t : String} {b : Buffer}
    (h : lookupKey l t = some b) : (t, b) ∈ l := by
  induction l with
  | nil => simp [lookupKey] at h
  | cons p rest ih =>
    by_cases hp : p.1 = t
    · simp only [lookupKey, if_pos hp] at h
      have : p = (t, b) := by
        cases p
        simp_all
      exact this ▸ List.mem_cons_self _ _
    · simp only [lookupKey, if_neg hp] at h
      exact List.mem_cons_of_mem _ (ih h)

/-- Destructuring an emitting `pollStep`: the emptiness check passed, a
median reference existed, the window test succeeded, and the outputs are
the emission branch's. -/
lemma pollStep_emit_destruct {s : Sync} {g : SyncGroup} {s' : Sync}
    (h : s.pollStep = (some g, s')) :
    anyEmpty s = false ∧ ∃ ref, refTs? s = some ref ∧
      allWithinWindow s ref = true ∧ g = emitGroup s ∧ s' = popAll s := by
  rw [Sync.pollStep] at h
  split at h
  · exact absurd (congrArg Prod.fst h) (by simp)
  · rename_i hae
    split at h
    · exact absurd (congrArg Prod.fst h) (by simp)
    · rename_i ref href
      split at h
      · rename_i hwin
        refine ⟨by simpa using hae, ref, href, hwin, ?_, ?_⟩
        · have := congrArg Prod.fst h
          simpa using this.symm
        · have := congrArg Prod.snd h
          simpa using this.symm
      · exact absurd (congrArg Prod.fst h) (by simp)

/-- Destructuring a non-emitting `pollStep`: either a buffer was empty (no
state change), or the topic list was empty (no state change, unreachable
after construction), or the window test failed and the state advanced. -/
lemma pollStep_none_destruct {s : Sync} {s' : Sync}
    (h : s.pollStep = (none, s')) :
    (anyEmpty s = true ∧ s' = s) ∨
    (anyEmpty s = false ∧ refTs? s = none ∧ s' = s) ∨
    (anyEmpty s = false ∧ ∃ ref, refTs? s = some ref ∧
      allWithinWindow s ref = false ∧ s' = advance s) := by
  rw [Sync.pollStep] at h
  split at h
  · rename_i hae
    left
    have := congrArg Prod.snd h
    exact ⟨hae, by simpa using this.symm⟩
  · rename_i hae
    split at h
    · rename_i href
      right; left
      have := congrArg Prod.snd h
      exact ⟨by simpa using hae, href, by simpa using this.symm⟩
    · rename_i ref href
      split at h
      · exact absurd (congrArg Prod.fst h) (by simp)
      · rename_i hwin
        right; right
        have := congrArg Prod.snd h
        exact ⟨by simpa using hae, ref, href, by simpa using hwin,
          by simpa using this.symm⟩

/-- With at least one registered stream the median index is in range. -/
lemma refTs_isSome_of_ne_nil {s : Sync} (hne : s.buffers ≠ []) :
    (refTs? s).isSome := by
  rw [refTs?]
  have hlen : (List.insertionSort (· ≤ ·) (timestamps s)).length =
      s.buffers.length := by
    rw [List.length_insertionSort]
    simp [timestamps, oldest]
  have hpos : 0 < s.buffers.length := List.length_pos.mpr hne
  cases hget : (List.insertionSort (· ≤ ·) (timestamps s)).get?
      ((List.insertionSort (· ≤ ·) (timestamps s)).length / 2) with
  | none =>
    have h1 := List.get?_eq_none.mp hget
    rw [hlen] at h1
    have h2 : s.buffers.length / 2 < s.buffers.length :=
      Nat.div_lt_self hpos Nat.one_lt_two
    omega
  | some v => simp [hget]

/-- The synchronizer state used as the concrete input of several claims
about the fallback matcher: three topics, a 1 ms window, head timestamps
0, 1000000 and 2000000 ns. -/
def cSt1 : Sync :=
  ⟨["a", "b", "c"], 1, 64,
    [("a", [⟨0, 10⟩]), ("b", [⟨1000000, 11⟩]), ("c", [⟨2000000, 12⟩])]⟩

/-- Claim C1, counterexample: with three topics, a 1 ms window
(window_ns = 1000000) and head timestamps 0, 1000000 and 2000000, the
fallback `poll` emits a group although the spread of the emitted
timestamps is 2000000 > window_ns — the code tests each head against the
median head, not max − min. -/
theorem C1_counterexample :
    (cSt1.pollStep.1).isSome = true ∧
    timestamps cSt1 = [0, 1000000, 2000000] ∧
    windowNs cSt1 = 1000000 ∧
    ¬((2000000 : Int) - 0 ≤ windowNs cSt1) := by decide

/-- Claim C1 (amended): whenever the fallback `poll` returns a group,
every head timestamp (the timestamps of the messages the call pops) lies
within window_ns of the median head timestamp, so the difference of any
two of the emitted timestamps is at most 2 · window_ns. -/
theorem C1_spread_le_two_windows {s : Sync} {g : SyncGroup} {s' : Sync}
    (h : s.pollStep = (some g, s')) {t1 t2 : Int}
    (h1 : t1 ∈ timestamps s) (h2 : t2 ∈ timestamps s) :
    t1 - t2 ≤ 2 * windowNs s := by
  obtain ⟨-, ref, -, hwin, -, -⟩ := pollStep_emit_destruct h
  have hall : ∀ p ∈ oldest s, |p.2.ts - ref| ≤ windowNs s := by
    intro p hp
    have := List.all_eq_true.mp hwin p hp
    exact of_decide_eq_true this
  obtain ⟨p1, hp1, hpt1⟩ := List.mem_map.mp h1
  obtain ⟨p2, hp2, hpt2⟩ := List.mem_map.mp h2
  have a1 := abs_le.mp (hall p1 hp1)
  have a2 := abs_le.mp (hall p2 hp2)
  rw [← hpt1, ← hpt2]
  omega

/-- The group emitted from `cSt1`. -/
def cSt1group : SyncGroup := ⟨[("a", 10), ("b", 11), ("c", 12)], 0⟩

/-- The state after the emitting poll on `cSt1`. -/
def cSt1after : Sync :=
  ⟨["a", "b", "c"], 1, 64, [("a", []), ("b", []), ("c", [])]⟩

/-- Witness for C1: the bound applied to the concrete emitting state. -/
theorem C1_witness :
    cSt1.pollStep = (some cSt1group, cSt1after) ∧
    (2000000 : Int) ∈ timestamps cSt1 ∧ (0 : Int) ∈ timestamps cSt1 ∧
    (2000000 : Int) - 0 ≤ 2 * windowNs cSt1 :=
  ⟨by decide, by decide, by decide,
    @C1_spread_le_two_windows cSt1 cSt1group cSt1after (by decide)
      2000000 0 (by decide) (by decide)⟩

/-- Claim C6 (code bug): the fallback constructor validates only the empty
topic list.  A buffer_size of 1 — which the spec and the repository's own
test `test_create_synchronizer_invalid_buffer_size` require construction
to reject — is accepted, yielding a synchronizer with one empty buffer;
the empty topic list is the only input that raises. -/
theorem C6_construction_accepts_buffer_size_one :
    mkSynchronizer ["topic1"] 50 1 =
      .ok (Sync.mk ["topic1"] 50 1 [("topic1", [])]) ∧
    mkSynchronizer [] 50 64 = .error .invalidArgument := ⟨rfl, rfl⟩

/-- The concrete input of claim C7: window_size_ms = 0, both buffers
non-empty, head timestamps 0 and 1. -/
def cSt7 : Sync := ⟨["a", "b"], 0, 64, [("a", [⟨0, 1⟩]), ("b", [⟨1, 2⟩])]⟩

/-- Claim C7 (code bug): window_size_ms = 0 is documented (in `_ffi.py`
and the spec) as the infinite-window sentinel, but the fallback treats it
as a zero-width window: with all buffers non-empty and head timestamps 0
and 1, `poll` emits nothing and discards the oldest head instead. -/
theorem C7_zero_window_not_infinite :
    anyEmpty cSt7 = false ∧
    cSt7.pollStep =
      (none, ⟨["a", "b"], 0, 64, [("a", []), ("b", [⟨1, 2⟩])]⟩) := by decide

/-- The concrete input of claim C9: one registered topic `a` holding one
message. -/
def cSt9 : Sync := ⟨["a"], 50, 64, [("a", [⟨5, 0⟩])]⟩

/-- Claim C9, counterexample: `buffer_len` on the unregistered name `b`
does not fail — `self._buffers.get(topic, [])` silently yields the empty
default, so the call returns 0. -/
theorem C9_counterexample :
    "b" ∉ cSt9.topics ∧ cSt9.bufferLen "b" = 0 := by decide

/-- Claim C9 (amended): `buffer_len` never fails; on a name that is not
registered it returns 0 (the length of the `.get` default), and every
registered topic has a buffer entry, whose length `buffer_len` returns by
definition. -/
theorem C9_buffer_len_total {s : Sync} (hw : WFKeys s) {t u : String}
    (ht : t ∉ s.topics) (hu : u ∈ s.topics) :
    s.bufferLen t = 0 ∧ (lookupKey s.buffers u).isSome = true := by
  constructor
  · have hkeys : t ∉ s.buffers.map Prod.fst := by
      rw [hw]
      exact fun hm => ht (mem_dedupFirst.mp hm)
    simp [Sync.bufferLen, lookupKey_eq_none hkeys]
  · exact lookupKey_isSome (by rw [hw]; exact mem_dedupFirst.mpr hu)

/-- Witness for C9: the amended statement at the concrete one-topic
state. -/
theorem C9_witness :
    WFKeys cSt9 ∧ "b" ∉ cSt9.topics ∧ "a" ∈ cSt9.topics ∧
    (cSt9.bufferLen "b" = 0 ∧ (lookupKey cSt9.buffers "a").isSome = true) :=
  ⟨by decide, by decide, by decide,
    C9_buffer_len_total (by decide) (by decide) (by decide)⟩

/-- The running minimum is a lower bound of the scanned values. -/
lemma foldl_min_le {r : List Int} {t : Int} :
    ∀ x ∈ t :: r, r.foldl min t ≤ x := by
  induction r generalizing t with
  | nil => intro x hx; simp at hx; simp [hx]
  | cons a r ih =>
    intro x hx
    rw [List.foldl_cons]
    have hlow : r.foldl min (min t a) ≤ min t a :=
      ih (min t a) (List.mem_cons_self _ _)
    rcases List.mem_cons.mp hx with hx | hx
    · subst hx; exact le_trans hlow (min_le_left _ _)
    rcases List.mem_cons.mp hx with hx | hx
    · subst hx; exact le_trans hlow (min_le_right _ _)
    · exact ih x (List.mem_cons_of_mem _ hx)

/-- The running minimum is one of the scanned values. -/
lemma foldl_min_mem (r : List Int) (t : Int) : r.foldl min t ∈ t :: r := by
  induction r generalizing t with
  | nil => simp
  | cons a r ih =>
    rw [List.foldl_cons]
    have hmem := ih (min t a)
    rcases List.mem_cons.mp hmem with h | h
    · rw [h]
      rcases min_choice t a with hm | hm
      · rw [hm]; exact List.mem_cons_self _ _
      · rw [hm]; exact List.mem_cons_of_mem _ (List.mem_cons_self _ _)
    · exact List.mem_cons_of_mem _ (List.mem_cons_of_mem _ h)

/-- The code's running minimum of a non-empty list is a member of it. -/
lemma minTs_mem {l : List Int} (h : l ≠ []) : minTs l ∈ l := by
  cases l with
  | nil => exact absurd rfl h
  | cons t r => simpa [minTs] using foldl_min_mem r t

/-- The code's running minimum is a lower bound. -/
lemma minTs_le {l : List Int} : ∀ x ∈ l, minTs l ≤ x := by
  cases l with
  | nil => intro x hx; simp at hx
  | cons t r => intro x hx; simpa [minTs] using foldl_min_le x hx

/-- Claim C2: an emitting `poll` takes, for each registered topic, exactly
the front element of that topic's buffer (every buffer was non-empty, the
group's payloads are the front payloads, and the post-state buffers are the
tails), and the group's `timestamp_ns` is the minimum of the popped
timestamps. -/
theorem C2_emission_pops_heads {s : Sync} {g : SyncGroup} {s' : Sync}
    (h : s.pollStep = (some g, s')) :
    (∀ p ∈ s.buffers, p.2 ≠ []) ∧
    g.messages = s.buffers.map (fun p => (p.1, (p.2.headD d0).payload)) ∧
    s'.buffers = s.buffers.map (fun p => (p.1, p.2.tail)) ∧
    g.timestampNs ∈ timestamps s ∧
    (∀ t ∈ timestamps s, g.timestampNs ≤ t) := by
  obtain ⟨hae, ref, href, hwin, hg, hs'⟩ := pollStep_emit_destruct h
  subst hg; subst hs'
  have hne : s.buffers ≠ [] := buffers_ne_nil_of_refTs href
  have hts : timestamps s ≠ [] := by
    simp only [timestamps, oldest, List.map_map, ne_eq, List.map_eq_nil_iff]
    exact hne
  refine ⟨anyEmpty_eq_false hae, rfl, rfl, ?_, ?_⟩
  · exact minTs_mem hts
  · intro t0 ht0
    exact minTs_le t0 ht0

/-- Witness for C2: the emission contract at the concrete emitting
state. -/
theorem C2_witness :
    cSt1.pollStep = (some cSt1group, cSt1after) ∧
    ((∀ p ∈ cSt1.buffers, p.2 ≠ []) ∧
      cSt1group.messages =
        cSt1.buffers.map (fun p => (p.1, (p.2.headD d0).payload)) ∧
      cSt1after.buffers = cSt1.buffers.map (fun p => (p.1, p.2.tail)) ∧
      cSt1group.timestampNs ∈ timestamps cSt1 ∧
      (∀ t ∈ timestamps cSt1, cSt1group.timestampNs ≤ t)) :=
  ⟨by decide, @C2_emission_pops_heads cSt1 cSt1group cSt1after (by decide)⟩

/-- `selMin` returns one of the scanned entries. -/
lemma selMin_mem (best : String × Msg) (l : List (String × Msg)) :
    selMin best l ∈ best :: l := by
  induction l generalizing best with
  | nil => simp [selMin]
  | cons p rest ih =>
    rw [selMin]
    have hmem := ih (if p.2.ts < best.2.ts then p else best)
    rcases List.mem_cons.mp hmem with h | h
    · rw [h]
      split
      · exact List.mem_cons_of_mem _ (List.mem_cons_self _ _)
      · exact List.mem_cons_self _ _
    · exact List.mem_cons_of_mem _ (List.mem_cons_of_mem _ h)

/-- `selMin` reaches the minimum head timestamp. -/
lemma selMin_le (best : String × Msg) (l : List (String × Msg)) :
    ∀ q ∈ best :: l, (selMin best l).2.ts ≤ q.2.ts := by
  induction l generalizing best with
  | nil =>
    intro q hq
    rw [List.mem_singleton] at hq
    subst hq
    simp [selMin]
  | cons p rest ih =>
    intro q hq
    rw [selMin]
    have hble : (if p.2.ts < best.2.ts then p else best).2.ts ≤ best.2.ts := by
      split
      · rename_i hlt; exact le_of_lt hlt
      · exact le_refl _
    have hple : (if p.2.ts < best.2.ts then p else best).2.ts ≤ p.2.ts := by
      split
      · exact le_refl _
      · rename_i hlt; exact not_lt.mp hlt
    have hsel := ih (if p.2.ts < best.2.ts then p else best)
    rcases List.mem_cons.mp hq with h | h
    · subst h
      exact le_trans (hsel _ (List.mem_cons_self _ _)) hble
    rcases List.mem_cons.mp h with h | h
    · subst h
      exact le_trans (hsel _ (List.mem_cons_self _ _)) hple
    · exact hsel q (List.mem_cons_of_mem _ h)

/-- `selMin` returns the leftmost entry attaining the minimum: every entry
strictly before it has a strictly larger head timestamp (because `selMin`
replaces its candidate only on a strict decrease). -/
lemma selMin_first (best : String × Msg) (l : List (String × Msg)) :
    ∃ i, (best :: l).get? i = some (selMin best l) ∧
      ∀ j q, j < i → (best :: l).get? j = some q →
        (selMin best l).2.ts < q.2.ts := by
  induction l generalizing best with
  | nil => exact ⟨0, rfl, fun j q hj _ => absurd hj (Nat.not_lt_zero j)⟩
  | cons p rest ih =>
    have heq : selMin best (p :: rest) =
        selMin (if p.2.ts < best.2.ts then p else best) rest := by rw [selMin]
    by_cases hc : p.2.ts < best.2.ts
    · rw [heq, if_pos hc]
      obtain ⟨i', hget, hfirst⟩ := ih p
      refine ⟨i' + 1, by simpa using hget, ?_⟩
      intro j q hj hq
      cases j with
      | zero =>
        have hqb : q = best := by simpa using hq.symm
        rw [hqb]
        have h1 : (selMin p rest).2.ts ≤ p.2.ts :=
          selMin_le p rest p (List.mem_cons_self _ _)
        exact lt_of_le_of_lt h1 hc
      | succ j' =>
        have hq' : (p :: rest).get? j' = some q := by simpa using hq
        exact hfirst j' q (by omega) hq'
    · rw [heq, if_neg hc]
      obtain ⟨i', hget, hfirst⟩ := ih best
      cases i' with
      | zero =>
        have hsel : best = selMin best rest := by simpa using hget
        exact ⟨0, by simpa using hsel,
          fun j q hj _ => absurd hj (Nat.not_lt_zero j)⟩
      | succ j'' =>
        have hget' : rest.get? j'' = some (selMin best rest) := by
          simpa using hget
        refine ⟨j'' + 2, by simpa using hget', ?_⟩
        intro j q hj hq
        cases j with
        | zero =>
          have hqb : q = best := by simpa using hq.symm
          rw [hqb]
          exact hfirst 0 best (Nat.succ_pos _) rfl
        | succ j2 =>
          cases j2 with
          | zero =>
            have hqp : q = p := by simpa using hq.symm
            rw [hqp]
            exact lt_of_lt_of_le (hfirst 0 best (Nat.succ_pos _) rfl)
              (not_lt.mp hc)
          | succ j3 =>
            have hq' : rest.get? j3 = some q := by simpa using hq
            exact hfirst (j3 + 1) q (by omega) (by simpa using hq')

/-- Updating the entry of an absent key changes nothing. -/
lemma mapIf_eq_self {l : List (String × Buffer)} {k : String}
    (h : k ∉ l.map Prod.fst) :
    l.map (fun p => if p.1 = k then (p.1, p.2.tail) else p) = l := by
  induction l with
  | nil => rfl
  | cons p rest ih =>
    simp only [List.map_cons, List.mem_cons] at h
    push_neg at h
    simp only [List.map_cons, if_neg (Ne.symm h.1)]
    rw [ih h.2]

/-- Discarding the front of exactly one non-empty buffer (identified by its
unique key) reduces the total buffered count by exactly one. -/
lemma advance_count {l : List (String × Buffer)} {k : String}
    (hnd : (l.map Prod.fst).Nodup) (hk : k ∈ l.map Prod.fst)
    (hall : ∀ p ∈ l, p.2 ≠ []) :
    ((l.map (fun p => if p.1 = k then (p.1, p.2.tail) else p)).map
      (fun p => p.2.length)).sum + 1 = (l.map (fun p => p.2.length)).sum := by
  induction l with
  | nil => simp at hk
  | cons p rest ih =>
    simp only [List.map_cons, List.nodup_cons] at hnd
    rw [List.map_cons] at hk
    rcases List.mem_cons.mp hk with hpk | hk'
    · have hrest : rest.map (fun q => if q.1 = k then (q.1, q.2.tail) else q) = rest :=
        mapIf_eq_self (by rw [hpk]; exact hnd.1)
      have hplen : p.2.tail.length + 1 = p.2.length := by
        cases h2 : p.2 with
        | nil => exact absurd h2 (hall p (List.mem_cons_self _ _))
        | cons a t => simp [h2]
      have hc : p.1 = k := hpk.symm
      simp only [List.map_cons, hc, if_true, eq_self_iff_true, hrest,
        List.sum_cons]
      omega
    · have hpk : p.1 ≠ k := fun he => hnd.1 (he ▸ hk')
      have hrec := ih hnd.2 hk' (fun q hq => hall q (List.mem_cons_of_mem _ hq))
      simp only [List.map_cons, if_neg hpk, List.sum_cons]
      omega

/-- Claim C3: a `poll` call that emits no group either found an empty
buffer and left the state untouched, or discarded exactly the front of the
stream whose head timestamp is minimal — the leftmost such stream on ties —
reducing the total buffered count by exactly one. -/
theorem C3_nonemit_dichotomy {s : Sync} (hne : s.buffers ≠ [])
    (hnd : (s.buffers.map Prod.fst).Nodup) {s' : Sync}
    (h : s.pollStep = (none, s')) :
    (anyEmpty s = true ∧ s' = s) ∨
    (anyEmpty s = false ∧ totalCount s' + 1 = totalCount s ∧
      s'.buffers = s.buffers.map
        (fun p => if p.1 = oldestTopic s then (p.1, p.2.tail) else p) ∧
      ∃ i sel, (oldest s).get? i = some sel ∧ sel.1 = oldestTopic s ∧
        (∀ q ∈ oldest s, sel.2.ts ≤ q.2.ts) ∧
        (∀ j q, j < i → (oldest s).get? j = some q → sel.2.ts < q.2.ts)) := by
  rcases pollStep_none_destruct h with ⟨hae, hs⟩ | ⟨hae, href, hs⟩ |
    ⟨hae, ref, href, hwin, hs⟩
  · exact Or.inl ⟨hae, hs⟩
  · have hsome := refTs_isSome_of_ne_nil (s := s) hne
    rw [href] at hsome
    simp at hsome
  · right
    subst hs
    have hall : ∀ p ∈ s.buffers, p.2 ≠ [] := anyEmpty_eq_false hae
    obtain ⟨hd, tl, hold⟩ : ∃ hd tl, oldest s = hd :: tl := by
      cases hc : oldest s with
      | nil =>
        rw [oldest, List.map_eq_nil_iff] at hc
        exact absurd hc hne
      | cons a b => exact ⟨a, b, rfl⟩
    have hot : oldestTopic s = (selMin hd tl).1 := by rw [oldestTopic, hold]
    have hselmem : selMin hd tl ∈ oldest s := hold ▸ selMin_mem hd tl
    obtain ⟨p0, hp0, hp0eq⟩ := List.mem_map.mp hselmem
    have hkey : oldestTopic s ∈ s.buffers.map Prod.fst := by
      rw [hot, ← hp0eq]
      exact List.mem_map.mpr ⟨p0, hp0, rfl⟩
    refine ⟨hae, ?_, rfl, ?_⟩
    · have := advance_count hnd hkey hall
      simpa [totalCount, advance] using this
    · obtain ⟨i, hget, hfirst⟩ := selMin_first hd tl
      refine ⟨i, selMin hd tl, ?_, hot.symm, ?_, ?_⟩
      · rw [hold]; exact hget
      · intro q hq
        exact selMin_le hd tl q (hold ▸ hq)
      · intro j q hj hq
        rw [hold] at hq
        exact hfirst j q hj hq

/-- The concrete input of the C3 witness: two topics whose heads are
100 ms apart under a 10 ms window, so `poll` advances. -/
def cSt3 : Sync :=
  ⟨["a", "b"], 10, 64, [("a", [⟨0, 0⟩]), ("b", [⟨100000000, 2⟩])]⟩

/-- The state after the advancing poll on `cSt3`. -/
def cSt3after : Sync :=
  ⟨["a", "b"], 10, 64, [("a", []), ("b", [⟨100000000, 2⟩])]⟩

/-- Witness for C3: the dichotomy applied at the concrete advancing
state. -/
theorem C3_witness :
    cSt3.buffers ≠ [] ∧ (cSt3.buffers.map Prod.fst).Nodup ∧
    cSt3.pollStep = (none, cSt3after) ∧
    ((anyEmpty cSt3 = true ∧ cSt3after = cSt3) ∨
      (anyEmpty cSt3 = false ∧ totalCount cSt3after + 1 = totalCount cSt3 ∧
        cSt3after.buffers = cSt3.buffers.map
          (fun p => if p.1 = oldestTopic cSt3 then (p.1, p.2.tail) else p) ∧
        ∃ i sel, (oldest cSt3).get? i = some sel ∧ sel.1 = oldestTopic cSt3 ∧
          (∀ q ∈ oldest cSt3, sel.2.ts ≤ q.2.ts) ∧
          (∀ j q, j < i → (oldest cSt3).get? j = some q →
            sel.2.ts < q.2.ts))) :=
  ⟨by decide, by decide, by decide,
    @C3_nonemit_dichotomy cSt3 (by decide) (by decide) cSt3after (by decide)⟩

/-- Updating a present key makes lookup return the new buffer. -/
lemma lookupKey_setKey {l : List (String × Buffer)} {t : String} {b : Buffer}
    (h : (lookupKey l t).isSome) : lookupKey (setKey l t b) t = some b := by
  induction l with
  | nil => simp [lookupKey] at h
  | cons p rest ih =>
    by_cases hp : p.1 = t
    · simp [setKey, lookupKey, hp]
    · rw [lookupKey, if_neg hp] at h
      simp only [setKey, List.map_cons, if_neg hp]
      rw [lookupKey, if_neg hp]
      exact ih h

/-- Claim C4 (modelled from the spec, the native DROP_OLDEST engine being
absent from `src/`): a `push` on a registered topic with a non-negative
timestamp is always accepted; when the target buffer is full the front
message is discarded and the new message enters at its stable sorted
position, otherwise it enters the intact buffer. -/
theorem C4_drop_oldest_accepts {s : Sync} {t : String} (ht : t ∈ s.topics)
    {ts : Int} (hts : 0 ≤ ts) {pl : Nat} {buf : Buffer}
    (hbuf : lookupKey s.buffers t = some buf) :
    acceptedOf (specPushDropOldest s t ts pl) = true ∧
    (s.bufferSize ≤ buf.length →
      lookupKey (stateOf (specPushDropOldest s t ts pl) s).buffers t =
        some (List.insertionSort msgLE (buf.tail ++ [⟨ts, pl⟩]))) ∧
    (buf.length < s.bufferSize →
      lookupKey (stateOf (specPushDropOldest s t ts pl) s).buffers t =
        some (List.insertionSort msgLE (buf ++ [⟨ts, pl⟩]))) := by
  have hsome : (lookupKey s.buffers t).isSome := by rw [hbuf]; rfl
  rw [specPushDropOldest, if_pos ht, if_neg (not_lt.mpr hts), hbuf]
  refine ⟨rfl, ?_, ?_⟩
  · intro hfull
    show lookupKey (setKey s.buffers t _) t = _
    rw [lookupKey_setKey (by simpa [setKey] using hsome), if_pos hfull]
  · intro hlt
    show lookupKey (setKey s.buffers t _) t = _
    rw [lookupKey_setKey (by simpa [setKey] using hsome), if_neg (not_le.mpr hlt)]

/-- The concrete input of the C4 witness: a full two-slot buffer receiving
a third message under DROP_OLDEST. -/
def cSt4 : Sync := ⟨["a"], 50, 2, [("a", [⟨1, 0⟩, ⟨2, 1⟩])]⟩

/-- Witness for C4: the DROP_OLDEST contract at the concrete full
buffer. -/
theorem C4_witness :
    "a" ∈ cSt4.topics ∧ (0 : Int) ≤ 3 ∧
    lookupKey cSt4.buffers "a" = some [⟨1, 0⟩, ⟨2, 1⟩] ∧
    (acceptedOf (specPushDropOldest cSt4 "a" 3 9) = true ∧
      (cSt4.bufferSize ≤ ([⟨1, 0⟩, ⟨2, 1⟩] : Buffer).length →
        lookupKey (stateOf (specPushDropOldest cSt4 "a" 3 9) cSt4).buffers "a" =
          some (List.insertionSort msgLE
            (([⟨1, 0⟩, ⟨2, 1⟩] : Buffer).tail ++ [⟨3, 9⟩]))) ∧
      (([⟨1, 0⟩, ⟨2, 1⟩] : Buffer).length < cSt4.bufferSize →
        lookupKey (stateOf (specPushDropOldest cSt4 "a" 3 9) cSt4).buffers "a" =
          some (List.insertionSort msgLE
            (([⟨1, 0⟩, ⟨2, 1⟩] : Buffer) ++ [⟨3, 9⟩])))) :=
  ⟨by decide, by decide, by decide,
    @C4_drop_oldest_accepts cSt4 "a" (by decide) 3 (by decide) 9
      [⟨1, 0⟩, ⟨2, 1⟩] (by decide)⟩

/-- Inserting one appended element into a sorted buffer by stable sort
places it after every element of less-or-equal timestamp and before the
rest: the embedding of `buffer.append(msg); buffer.sort(key=ts)` on a
sorted buffer. -/
lemma insertionSort_sorted_append {l : List Msg} (m : Msg)
    (hl : List.Sorted msgLE l) :
    List.insertionSort msgLE (l ++ [m]) =
      l.takeWhile (fun x => decide (x.ts ≤ m.ts)) ++
        m :: l.dropWhile (fun x => decide (x.ts ≤ m.ts)) := by
  induction l with
  | nil => simp
  | cons x l ih =>
    have hx : ∀ y ∈ l, msgLE x y := (List.sorted_cons.mp hl).1
    have hl' : List.Sorted msgLE l := (List.sorted_cons.mp hl).2
    rw [List.cons_append, List.insertionSort, ih hl']
    by_cases hxm : x.ts ≤ m.ts
    · have hcond : decide (x.ts ≤ m.ts) = true := decide_eq_true hxm
      simp only [List.takeWhile_cons, List.dropWhile_cons, hcond,
        eq_self_iff_true, if_true]
      rw [List.cons_append]
      cases hT : l.takeWhile (fun x => decide (x.ts ≤ m.ts)) with
      | nil =>
        rw [List.nil_append]
        rw [List.orderedInsert, if_pos (show msgLE x m from hxm)]
      | cons y T' =>
        have hyl : y ∈ l := by
          have hsub := List.takeWhile_sublist
            (l := l) (p := fun x => decide (x.ts ≤ m.ts))
          exact hsub.subset (hT ▸ List.mem_cons_self _ _)
        rw [List.cons_append, List.orderedInsert, if_pos (hx y hyl)]
    · have hmx : m.ts < x.ts := not_le.mp hxm
      have hally : ∀ y ∈ l, ¬(y.ts ≤ m.ts) := by
        intro y hy
        have := hx y hy
        rw [msgLE] at this
        omega
      have hcond : ¬(decide (x.ts ≤ m.ts) = true) := by simpa using hxm
      have hT : l.takeWhile (fun x => decide (x.ts ≤ m.ts)) = [] := by
        cases hc : l with
        | nil => rfl
        | cons y l' =>
          rw [List.takeWhile_cons,
            if_neg (by simpa using hally y (hc ▸ List.mem_cons_self _ _))]
      have hD : l.dropWhile (fun x => decide (x.ts ≤ m.ts)) = l := by
        cases hc : l with
        | nil => rfl
        | cons y l' =>
          rw [List.dropWhile_cons,
            if_neg (by simpa using hally y (hc ▸ List.mem_cons_self _ _))]
      have hinsx : List.orderedInsert msgLE x l = x :: l := by
        cases hc : l with
        | nil => rfl
        | cons y l' =>
          rw [List.orderedInsert, if_pos (hx y (hc ▸ List.mem_cons_self _ _))]
      rw [hT, hD]
      simp only [List.takeWhile_cons, List.dropWhile_cons, if_neg hcond]
      rw [List.nil_append, List.orderedInsert,
        if_neg (show ¬msgLE x m from hxm), hinsx]
      rfl

/-- Entries of a key update are either the new buffer or old entries. -/
lemma setKey_cases {l : List (String × Buffer)} {t : String} {b : Buffer}
    {p : String × Buffer} (hp : p ∈ setKey l t b) :
    p.2 = b ∨ p ∈ l := by
  obtain ⟨q, hq, hqe⟩ := List.mem_map.mp hp
  by_cases hqt : q.1 = t
  · rw [if_pos hqt] at hqe
    exact Or.inl (by rw [← hqe])
  · rw [if_neg hqt] at hqe
    exact Or.inr (hqe ▸ hq)

/-- A successful `push` on the fallback produces a state whose branches
are the reject (full buffer, state unchanged) or the sorted insert. -/
lemma push_destruct {s : Sync} {t : String} {ts : Int} {pl : Nat}
    {b : Bool} {s1 : Sync} (h : s.push t ts pl = .ok (b, s1)) :
    ∃ buf, lookupKey s.buffers t = some buf ∧
      ((s.bufferSize ≤ buf.length ∧ b = false ∧ s1 = s) ∨
        (buf.length < s.bufferSize ∧ b = true ∧
          s1 = { s with buffers := setKey s.buffers t (List.insertionSort msgLE (buf ++ [⟨ts, pl⟩])) })) := by
  rw [Sync.push] at h
  split at h
  · split at h
    · exact absurd h (by simp)
    · split at h
      · exact absurd h (by simp)
      · rename_i buf hbuf
        refine ⟨buf, hbuf, ?_⟩
        split at h
        · rename_i hfull
          obtain ⟨hb, hs1⟩ : false = b ∧ s = s1 := by simpa using h
          exact Or.inl ⟨hfull, hb.symm, hs1.symm⟩
        · rename_i hfull
          obtain ⟨hb, hs1⟩ : true = b ∧ _ = s1 := by simpa using h
          exact Or.inr ⟨not_le.mp hfull, hb.symm, hs1.symm⟩
  · exact absurd h (by simp)

/-- `pollStep` leaves the state alone, pops every front, or pops one
front. -/
lemma pollStep_state_cases (s : Sync) :
    s.pollStep.2 = s ∨ s.pollStep.2 = popAll s ∨ s.pollStep.2 = advance s := by
  rw [Sync.pollStep]
  split
  · exact Or.inl rfl
  · split
    · exact Or.inl rfl
    · split
      · exact Or.inr (Or.inl rfl)
      · exact Or.inr (Or.inr rfl)

/-- Claim C5: after a `push` (including a late arrival) and after a `poll`
every buffer is still non-decreasing by timestamp, and an accepted push
places the new message after every buffered message of less-or-equal
timestamp and before the strictly later ones — stable insertion with
arrival order as the tie-break. -/
theorem C5_sorted_invariant {s : Sync} (hs : sortedBuffers s)
    {t : String} {ts : Int} {pl : Nat} {buf : Buffer}
    (hbuf : lookupKey s.buffers t = some buf) {b : Bool} {s1 : Sync}
    (hpush : s.push t ts pl = .ok (b, s1)) {g : Option SyncGroup} {s2 : Sync}
    (hpoll : s.pollStep = (g, s2)) :
    sortedBuffers s1 ∧ sortedBuffers s2 ∧
    (b = true → lookupKey s1.buffers t =
      some (buf.takeWhile (fun x => decide (x.ts ≤ ts)) ++
        ⟨ts, pl⟩ :: buf.dropWhile (fun x => decide (x.ts ≤ ts)))) := by
  obtain ⟨buf', hbuf', hcase⟩ := push_destruct hpush
  have hbe : buf' = buf := by
    rw [hbuf] at hbuf'
    exact (Option.some.injEq _ _ ▸ hbuf').symm
  rw [hbe] at hcase
  have hsorted_buf : List.Sorted msgLE buf := hs _ (lookupKey_mem hbuf)
  refine ⟨?_, ?_, ?_⟩
  · rcases hcase with ⟨-, -, hs1⟩ | ⟨-, -, hs1⟩
    · rw [hs1]; exact hs
    · rw [hs1]
      intro p hp
      rcases setKey_cases hp with hnew | hold
      · rw [hnew]
        exact List.sorted_insertionSort msgLE _
      · exact hs p hold
  · have hstate : s2 = s.pollStep.2 := by rw [hpoll]
    rcases pollStep_state_cases s with hc | hc | hc
    · rw [hstate, hc]; exact hs
    · rw [hstate, hc]
      intro p hp
      obtain ⟨q, hq, hqe⟩ := List.mem_map.mp hp
      have := hs q hq
      rw [← hqe]
      exact this.sublist (List.tail_sublist _)
    · rw [hstate, hc]
      intro p hp
      obtain ⟨q, hq, hqe⟩ := List.mem_map.mp hp
      have hsq := hs q hq
      by_cases hqt : q.1 = oldestTopic s
      · rw [if_pos hqt] at hqe
        rw [← hqe]
        exact hsq.sublist (List.tail_sublist _)
      · rw [if_neg hqt] at hqe
        exact hqe ▸ hsq
  · intro hb
    rcases hcase with ⟨-, hbf, -⟩ | ⟨-, -, hs1⟩
    · rw [hb] at hbf; exact absurd hbf (by simp)
    · rw [hs1]
      show lookupKey (setKey s.buffers t _) t = _
      rw [lookupKey_setKey (by rw [hbuf]; rfl)]
      rw [insertionSort_sorted_append _ hsorted_buf]

/-- The concrete input of the C5 witness: topic `a` holds timestamps 1 and
3; the pushed message has timestamp 2, a late arrival that must be
inserted in the middle; the state also admits an emitting poll. -/
def cSt5 : Sync :=
  ⟨["a", "b"], 50, 64, [("a", [⟨1, 0⟩, ⟨3, 1⟩]), ("b", [⟨1, 9⟩])]⟩

/-- The state after pushing (a, ts = 2) into `cSt5`. -/
def cSt5push : Sync :=
  ⟨["a", "b"], 50, 64, [("a", [⟨1, 0⟩, ⟨2, 7⟩, ⟨3, 1⟩]), ("b", [⟨1, 9⟩])]⟩

/-- The group emitted by polling `cSt5`. -/
def cSt5group : SyncGroup := ⟨[("a", 0), ("b", 9)], 1⟩

/-- The state after polling `cSt5`. -/
def cSt5poll : Sync := ⟨["a", "b"], 50, 64, [("a", [⟨3, 1⟩]), ("b", [])]⟩

/-- Witness for C5: the ordering invariant at a concrete late-arrival push
and an emitting poll. -/
theorem C5_witness :
    sortedBuffers cSt5 ∧
    lookupKey cSt5.buffers "a" = some [⟨1, 0⟩, ⟨3, 1⟩] ∧
    cSt5.push "a" 2 7 = Except.ok (true, cSt5push) ∧
    cSt5.pollStep = (some cSt5group, cSt5poll) ∧
    (sortedBuffers cSt5push ∧ sortedBuffers cSt5poll ∧
      (true = true → lookupKey cSt5push.buffers "a" =
        some (([⟨1, 0⟩, ⟨3, 1⟩] : Buffer).takeWhile
            (fun x => decide (x.ts ≤ 2)) ++
          ⟨2, 7⟩ :: ([⟨1, 0⟩, ⟨3, 1⟩] : Buffer).dropWhile
            (fun x => decide (x.ts ≤ 2))))) :=
  ⟨by decide, by decide, rfl, by decide,
    @C5_sorted_invariant cSt5 (by decide) "a" 2 7 [⟨1, 0⟩, ⟨3, 1⟩]
      (by decide) true cSt5push rfl (some cSt5group) cSt5poll
      (by decide)⟩

/-- The concrete input of the C8 counterexample: topics `a`, `b`, window
10 ms; buffer `a` holds timestamps 0 and 95 ms, buffer `b` holds 100 ms.
The first poll discards a's head and returns no group, so `drain` stops
empty-handed although the very next poll emits. -/
def cSt8 : Sync :=
  ⟨["a", "b"], 10, 64,
    [("a", [⟨0, 0⟩, ⟨95000000, 1⟩]), ("b", [⟨100000000, 2⟩])]⟩

/-- The state at which `drain cSt8` stops. -/
def cSt8mid : Sync :=
  ⟨["a", "b"], 10, 64,
    [("a", [⟨95000000, 1⟩]), ("b", [⟨100000000, 2⟩])]⟩

/-- Claim C8, counterexample: `drain` on `cSt8` collects no groups — its
first poll returns no group — yet a further poll on the resulting state
emits a group, so the collected groups are not maximal. -/
theorem C8_counterexample :
    cSt8.drain = ([], cSt8mid) ∧ (cSt8mid.pollStep.1).isSome = true := by
  constructor
  · exact drain_none (by decide)
  · decide

/-- Claim C8 (amended): `drain` collects exactly the groups of the maximal
run of consecutive emitting polls: there is an `n` such that the first `n`
polls emit and their groups are, in order, the list `drain` returns, the
`(n+1)`-st poll returns no group, and `drain` stops in the state after
that non-emitting poll — which may have discarded a head, so later polls
may emit again. -/
theorem C8_drain_stops_at_first_none (s : Sync) :
    ∃ n, s.drain.1.length = n ∧
      stepGroup (stepSt^[n] s) = none ∧
      (∀ i, i < n → s.drain.1.get? i = stepGroup (stepSt^[i] s) ∧
        (stepGroup (stepSt^[i] s)).isSome = true) ∧
      s.drain.2 = stepSt (stepSt^[n] s) := by
  suffices H : ∀ N s, totalCount s ≤ N →
      ∃ n, Sync.drain s |>.1.length = n ∧
        stepGroup (stepSt^[n] s) = none ∧
        (∀ i, i < n → (Sync.drain s).1.get? i = stepGroup (stepSt^[i] s) ∧
          (stepGroup (stepSt^[i] s)).isSome = true) ∧
        (Sync.drain s).2 = stepSt (stepSt^[n] s) by
    exact H (totalCount s) s le_rfl
  intro N
  induction N with
  | zero =>
    intro s hsN
    cases hp : s.pollStep with
    | mk og s' =>
      cases og with
      | none =>
        refine ⟨0, by rw [drain_none hp]; rfl, by
          rw [Function.iterate_zero_apply, stepGroup, hp], ?_, ?_⟩
        · intro i hi; omega
        · rw [drain_none hp, Function.iterate_zero_apply, stepSt, hp]
      | some g =>
        have := pollStep_emit_totalCount hp
        omega
  | succ N ih =>
    intro s hsN
    cases hp : s.pollStep with
    | mk og s' =>
      cases og with
      | none =>
        refine ⟨0, by rw [drain_none hp]; rfl, by
          rw [Function.iterate_zero_apply, stepGroup, hp], ?_, ?_⟩
        · intro i hi; omega
        · rw [drain_none hp, Function.iterate_zero_apply, stepSt, hp]
      | some g =>
        have hdec := pollStep_emit_totalCount hp
        have hstep : stepSt s = s' := by rw [stepSt, hp]
        obtain ⟨n', h1, h2, h3, h4⟩ := ih s' (by omega)
        refine ⟨n' + 1, ?_, ?_, ?_, ?_⟩
        · rw [drain_some hp]
          simp [h1]
        · rw [Function.iterate_succ_apply, hstep]
          exact h2
        · intro i hi
          cases i with
          | zero =>
            rw [drain_some hp, Function.iterate_zero_apply, stepGroup, hp]
            exact ⟨rfl, rfl⟩
          | succ j =>
            rw [drain_some hp, Function.iterate_succ_apply, hstep]
            have := h3 j (by omega)
            simpa using this
        · rw [drain_some hp, Function.iterate_succ_apply, hstep]
          exact h4

/-- Claim C10: with exactly two streams the fallback's median-based window
test emits in exactly the states where the spec's head-set test
(`max − min ≤ window_ns` over non-empty heads) emits: for N = 2 the median
is the larger head, so `|ts − median| ≤ w` for both heads collapses to
`max − min ≤ w`. -/
theorem C10_two_topic_equivalence {s : Sync} (hlen : s.buffers.length = 2) :
    (s.pollStep.1).isSome = headSetEmits s := by
  obtain ⟨p1, p2, hbuf⟩ := List.length_eq_two.mp hlen
  cases he : anyEmpty s with
  | true => simp [Sync.pollStep, headSetEmits, he]
  | false =>
    have hne := anyEmpty_eq_false he
    obtain ⟨m1, r1, hm1⟩ : ∃ m1 r1, p1.2 = m1 :: r1 := by
      cases hp : p1.2 with
      | nil => exact absurd hp (hne p1 (hbuf ▸ List.mem_cons_self _ _))
      | cons a b => exact ⟨a, b, rfl⟩
    obtain ⟨m2, r2, hm2⟩ : ∃ m2 r2, p2.2 = m2 :: r2 := by
      cases hp : p2.2 with
      | nil =>
        exact absurd hp (hne p2
          (hbuf ▸ List.mem_cons_of_mem _ (List.mem_cons_self _ _)))
      | cons a b => exact ⟨a, b, rfl⟩
    have hot : oldest s = [(p1.1, m1), (p2.1, m2)] := by
      rw [oldest, hbuf]
      simp [hm1, hm2]
    have hts : timestamps s = [m1.ts, m2.ts] := by
      rw [timestamps, hot]
      rfl
    have hR : headSetEmits s =
        decide (max m1.ts m2.ts - min m1.ts m2.ts ≤ windowNs s) := by
      rw [headSetEmits, if_neg (by simp [he]), hts]
      simp [List.foldl, max_comm, min_comm]
    have hwin : allWithinWindow s m2.ts =
        (decide (|m1.ts - m2.ts| ≤ windowNs s) &&
          decide (|m2.ts - m2.ts| ≤ windowNs s)) := by
      rw [allWithinWindow, hot]
      simp [List.all]
    have hwin' : allWithinWindow s m1.ts =
        (decide (|m1.ts - m1.ts| ≤ windowNs s) &&
          decide (|m2.ts - m1.ts| ≤ windowNs s)) := by
      rw [allWithinWindow, hot]
      simp [List.all]
    by_cases hc : m1.ts ≤ m2.ts
    · have href : refTs? s = some m2.ts := by
        rw [refTs?, hts]
        simp [hc]
      have hL : s.pollStep.1.isSome = allWithinWindow s m2.ts := by
        rw [Sync.pollStep, if_neg (by simp [he]), href]
        cases hac : allWithinWindow s m2.ts <;> simp [hac]
      rw [hL, hR, hwin]
      have habs : |m1.ts - m2.ts| = m2.ts - m1.ts := by
        rw [abs_of_nonpos (by omega)]
        ring
      rw [habs, max_eq_right hc, min_eq_left hc, sub_self, abs_zero]
      by_cases hbw : m2.ts - m1.ts ≤ windowNs s
      · have h0w : (0 : Int) ≤ windowNs s := by omega
        simp [hbw, h0w]
      · simp [hbw]
    · have hc' : m2.ts ≤ m1.ts := le_of_not_le hc
      have href : refTs? s = some m1.ts := by
        rw [refTs?, hts]
        simp [hc]
      have hL : s.pollStep.1.isSome = allWithinWindow s m1.ts := by
        rw [Sync.pollStep, if_neg (by simp [he]), href]
        cases hac : allWithinWindow s m1.ts <;> simp [hac]
      rw [hL, hR, hwin']
      have habs : |m2.ts - m1.ts| = m1.ts - m2.ts := by
        rw [abs_of_nonpos (by omega)]
        ring
      rw [habs, max_eq_left hc', min_eq_right hc', sub_self, abs_zero]
      by_cases hbw : m1.ts - m2.ts ≤ windowNs s
      · have h0w : (0 : Int) ≤ windowNs s := by omega
        simp [hbw, h0w]
      · simp [hbw]

/-- The concrete input of the C10 witness: two topics whose heads differ by
exactly the window width. -/
def cStA : Sync := ⟨["a", "b"], 1, 64, [("a", [⟨0, 1⟩]), ("b", [⟨1000000, 2⟩])]⟩

/-- Witness for C10: the equivalence evaluated at a two-topic state where
both tests emit. -/
theorem C10_witness :
    cStA.buffers.length = 2 ∧
    (cStA.pollStep.1).isSome = headSetEmits cStA ∧
    headSetEmits cStA = true :=
  ⟨by decide, C10_two_topic_equivalence (by decide), by decide⟩

end Conflux
